import Mathlib

/-!
Verification development for the `awsid` repository (Go).

The program keeps a local CSV cache of AWS account records, refreshed from
AWS Organizations, and resolves an alias name to an account id.  We embed
the record model and the pure core of `src/main.go` (search, sort, flag
resolution, cache serialization and parsing) as executable Lean functions
and prove the specification's claims about them.

The cache file is read through Go's `encoding/csv` reader configured with
`Comment = '#'` and `TrimLeadingSpace = true` (see `readAccountInfo`,
src/main.go lines 322-384) and written through `encoding/csv`'s writer
(`saveAccountInfoToCSV`, lines 505-536).  Those two stdlib components are
embedded here faithfully for that configuration: comma separator, comment
lines, leading-space trimming, RFC-4180 quoting, the writer's quoting rule,
and the reader's default `FieldsPerRecord = 0` behaviour, which fixes the
field count of a file to the field count of its first record.  The
whitespace class is Go's full `unicode.IsSpace` (the Unicode White_Space
property), and the reader's `readLine` drop of one trailing carriage
return before end of input is modelled as a preprocessing step.  Go's
`sort.Slice` runs pdqsort, which on slices of at most 12 elements is
exactly the insertion sort embedded here; the sort theorems carry that
length bound.
-/

namespace Awsid

/-- Whitespace test used by `strings.TrimSpace` and by the CSV reader's
`TrimLeadingSpace`: Go's `unicode.IsSpace`, i.e. the Unicode White_Space
property - TAB through CR, space, NEL, NBSP, OGHAM SPACE MARK, the
U+2000..U+200A spaces, LINE and PARAGRAPH SEPARATOR, NARROW NO-BREAK
SPACE, MEDIUM MATHEMATICAL SPACE and IDEOGRAPHIC SPACE. -/
def isSpaceGo (c : Char) : Bool :=
  c = ' ' || c = '\t' || c = '\n' || c = Char.ofNat 11 || c = Char.ofNat 12 ||
  c = '\r' || c = Char.ofNat 0x85 || c = Char.ofNat 0xA0 ||
  c = Char.ofNat 0x1680 ||
  (Char.ofNat 0x2000 ≤ c && c ≤ Char.ofNat 0x200A) ||
  c = Char.ofNat 0x2028 || c = Char.ofNat 0x2029 || c = Char.ofNat 0x202F ||
  c = Char.ofNat 0x205F || c = Char.ofNat 0x3000

/-- Embeds Go `strings.TrimSpace`: drop whitespace from both ends. -/
def goTrim (s : String) : String :=
  String.mk (((s.data.dropWhile isSpaceGo).reverse.dropWhile isSpaceGo).reverse)

/-! ## CSV reader (Go `encoding/csv`, as configured in `readAccountInfo`) -/

/-- Leading-space trimming at the start of a field (`TrimLeadingSpace`).
Go trims leading whitespace of the current line; the terminating newline
(`"\n"`, or `"\r\n"` before normalization) is never part of the trimmed
prefix, so trimming stops at a line terminator. -/
def trimLead : List Char → List Char
  | [] => []
  | c :: t =>
    if c = '\n' then c :: t
    else if c = '\r' ∧ t.head? = some '\n' then c :: t
    else if isSpaceGo c then trimLead t
    else c :: t

/-- Drop one trailing carriage return.  Go's `readLine` normalizes a
terminal `"\r\n"` to `"\n"` before the field is cut, and also drops a
carriage return standing immediately before end of input. -/
def stripCR (l : List Char) : List Char :=
  if l.getLast? = some '\r' then l.dropLast else l

/-- Cut one unquoted field from the stream: the chars up to a comma, a
newline or end of input.  Returns the field, the rest of the stream and
whether the record ended (newline or end of input). -/
def takeField (s : List Char) : List Char × List Char × Bool :=
  let f := s.takeWhile (fun c => !(c = ',' || c = '\n'))
  match s.dropWhile (fun c => !(c = ',' || c = '\n')) with
  | ',' :: t => (f, t, false)
  | '\n' :: t => (stripCR f, t, true)
  | _ => (f, [], true)

/-- Scan the inside of a quoted field.  `acc` is the content read so far.
Doubled quotes decode to one quote; a closing quote must be followed by a
comma, a line end or the end of input; a `"\r\n"` inside the field decodes
to `"\n"` (Go's `readLine` normalization).  Returns the field content, the
rest of the stream and whether the record ended. -/
def scanQuoted : Nat → List Char → List Char → Except String (List Char × List Char × Bool)
  | 0, _, _ => Except.error "fuel"
  | fuel + 1, acc, s =>
    match s with
    | [] => Except.error "extraneous or missing \" in quoted-field"
    | c :: t =>
      if c = '"' then
        if t.head? = some '"' then scanQuoted fuel (acc ++ ['"']) (t.drop 1)
        else if t.head? = some ',' then Except.ok (acc, t.drop 1, false)
        else if t = [] then Except.ok (acc, [], true)
        else if t.head? = some '\n' then Except.ok (acc, t.drop 1, true)
        else if t.head? = some '\r' ∧ (t.drop 1).head? = some '\n' then
          Except.ok (acc, t.drop 2, true)
        else Except.error "extraneous or missing \" in quoted-field"
      else if c = '\r' ∧ t.head? = some '\n' then scanQuoted fuel (acc ++ ['\n']) (t.drop 1)
      else scanQuoted fuel (acc ++ [c]) t

/-- Parse the fields of one record, starting inside a non-comment,
non-empty line.  Accumulates fields in order in `acc`. -/
def parseFields : Nat → List Char → List String → Except String (List String × List Char)
  | 0, _, _ => Except.error "fuel"
  | fuel + 1, s, acc =>
    let s1 := trimLead s
    if s1.head? = some '"' then
      match scanQuoted fuel [] (s1.drop 1) with
      | Except.error e => Except.error e
      | Except.ok (f, rest2, ended) =>
        if ended then Except.ok (acc ++ [String.mk f], rest2)
        else parseFields fuel rest2 (acc ++ [String.mk f])
    else
      match takeField s1 with
      | (f, rest2, ended) =>
        if f.any (fun c => c == '"') then Except.error "bare \" in non-quoted field"
        else if ended then Except.ok (acc ++ [String.mk f], rest2)
        else parseFields fuel rest2 (acc ++ [String.mk f])

/-- Read all records of the stream.  Empty lines and lines whose first
character is the comment character `#` are skipped before each record;
`expected` carries the reader's `FieldsPerRecord` state: with the default
configuration the first record fixes the field count and any later record
with a different count is a hard error. -/
def readRecords : Nat → List Char → Option Nat → Except String (List (List String))
  | 0, _, _ => Except.error "fuel"
  | fuel + 1, s, expected =>
    if s = [] then Except.ok []
    else if s.head? = some '\n' then readRecords fuel (s.drop 1) expected
    else if s.head? = some '\r' ∧ (s.drop 1).head? = some '\n' then
      readRecords fuel (s.drop 2) expected
    else if s.head? = some '#' then
      readRecords fuel (((s.drop 1).dropWhile (fun c => !(c = '\n'))).drop 1) expected
    else
      match parseFields fuel s [] with
      | Except.error e => Except.error e
      | Except.ok (fields, rest) =>
        match expected with
        | none => (readRecords fuel rest (some fields.length)).map (fields :: ·)
        | some n =>
          if fields.length = n then (readRecords fuel rest (some n)).map (fields :: ·)
          else Except.error "wrong number of fields"

/-- Embeds `csv.Reader.ReadAll` with `Comment = '#'`,
`TrimLeadingSpace = true` and the default `FieldsPerRecord = 0`.  Go's
`readLine` drops one trailing carriage return immediately before end of
input (a backwards-compatibility rule), modelled by pre-stripping it from
the stream.  The fuel bounds the number of parsing steps; every step
consumes input, so `4 * (length + 2)` steps always suffice. -/
def csvReadAll (content : List Char) : Except String (List (List String)) :=
  readRecords (4 * ((stripCR content).length + 2)) (stripCR content) none

/-! ## CSV writer (Go `encoding/csv`, as used in `saveAccountInfoToCSV`) -/

/-- Embeds `csv.Writer.fieldNeedsQuotes` (default comma, `UseCRLF=false`):
quote a field iff it is non-empty and contains a comma, a quote or a line
break, or starts with whitespace, or is the literal string `\.`. -/
def fieldNeedsQuotes (f : List Char) : Bool :=
  match f with
  | [] => false
  | c :: _ =>
    f = ['\\', '.'] ||
    f.any (fun d => d = ',' || d = '"' || d = '\r' || d = '\n') ||
    isSpaceGo c

/-- Double every quote, as the writer does inside a quoted field
(`UseCRLF = false` writes `\r` and `\n` verbatim). -/
def escapeQuotes : List Char → List Char
  | [] => []
  | c :: t => if c = '"' then '"' :: '"' :: escapeQuotes t else c :: escapeQuotes t

/-- Encode one field as the writer does. -/
def encodeField (f : String) : List Char :=
  if fieldNeedsQuotes f.data then '"' :: escapeQuotes f.data ++ ['"'] else f.data

/-- Join encoded fields with commas (the writer writes a comma before every
field but the first). -/
def joinComma : List (List Char) → List Char
  | [] => []
  | [f] => f
  | f :: fs => f ++ ',' :: joinComma fs

/-- Encode one record: comma-joined encoded fields plus a newline. -/
def encodeRow (r : List String) : List Char :=
  joinComma (r.map encodeField) ++ ['\n']

/-- Embeds `csv.Writer` on a whole record list. -/
def csvEncode (rows : List (List String)) : List Char :=
  (rows.map encodeRow).flatten

/-! ## Record model (src/main.go lines 19-34) -/

/-- Embeds the `AccountInfo` struct: the seven extended fields plus the two
backward-compatibility aliases. -/
structure AccountInfo where
  ID : String
  Arn : String
  Email : String
  Name : String
  Status : String
  JoinedMethod : String
  JoinedTimestamp : String
  AliasName : String
  AccountID : String
deriving DecidableEq

/-- Extended-shape decode of one cache row (`readAccountInfo`, lines
353-366): fields in order id, arn, email, name, status, joined_method,
joined_timestamp, each trimmed; `AliasName` mirrors `Name`, `AccountID`
mirrors `ID`. -/
def extRow (r : List String) : AccountInfo :=
  { ID := goTrim (r.getD 0 ""), Arn := goTrim (r.getD 1 ""),
    Email := goTrim (r.getD 2 ""), Name := goTrim (r.getD 3 ""),
    Status := goTrim (r.getD 4 ""), JoinedMethod := goTrim (r.getD 5 ""),
    JoinedTimestamp := goTrim (r.getD 6 ""),
    AliasName := goTrim (r.getD 3 ""), AccountID := goTrim (r.getD 0 "") }

/-- Legacy-shape decode of one cache row (`readAccountInfo`, lines
367-375): alias_name, account_id; only the first two fields are used. -/
def legRow (r : List String) : AccountInfo :=
  { ID := goTrim (r.getD 1 ""), Arn := "", Email := "",
    Name := goTrim (r.getD 0 ""), Status := "", JoinedMethod := "",
    JoinedTimestamp := "",
    AliasName := goTrim (r.getD 0 ""), AccountID := goTrim (r.getD 1 "") }

/-- Body of the row loop in `readAccountInfo` (lines 349-380): a row is
considered only with at least two fields and a non-empty leading field;
at least seven fields select the extended shape, otherwise the legacy
shape; the decoded record is kept only if its `ID` is non-empty. -/
def rowToAccount (r : List String) : Option AccountInfo :=
  if 2 ≤ r.length ∧ r.headD "" ≠ "" then
    let account := if 7 ≤ r.length then extRow r else legRow r
    if account.ID ≠ "" then some account else none
  else none

/-- Header check of `readAccountInfo` (line 345): only the first parsed
row is discarded, and only when its first field is exactly `alias_name`,
`AliasName` or `id`. -/
def isHeaderRow (r : List String) : Bool :=
  match r with
  | f :: _ => f = "alias_name" || f = "AliasName" || f = "id"
  | [] => false

/-- Record-processing loop of `readAccountInfo` (lines 343-381) over the
rows delivered by the CSV reader. -/
def processRows (rows : List (List String)) : List AccountInfo :=
  match rows with
  | [] => []
  | r0 :: rest =>
    if isHeaderRow r0 then rest.filterMap rowToAccount
    else (r0 :: rest).filterMap rowToAccount

/-- Embeds `readAccountInfo` (lines 322-384) on the cache-file content:
CSV parse (comments, trimming, quoting, uniform field count), then the
row-processing loop.  I/O errors on opening the file are outside the
embedding. -/
def readAccountInfo (content : List Char) : Except String (List AccountInfo) :=
  (csvReadAll content).map processRows

/-! ## Cache serialization (src/main.go lines 505-536) -/

/-- Fixed header written by `saveAccountInfoToCSV` (line 516). -/
def headerRow : List String :=
  ["id", "arn", "email", "name", "status", "joined_method", "joined_timestamp"]

/-- One data row written by `saveAccountInfoToCSV` (lines 521-533): the
seven extended fields in fixed order. -/
def accountToRow (a : AccountInfo) : List String :=
  [a.ID, a.Arn, a.Email, a.Name, a.Status, a.JoinedMethod, a.JoinedTimestamp]

/-- Rows written by `saveAccountInfoToCSV`: header then one row per
record, in input order. -/
def saveRows (accounts : List AccountInfo) : List (List String) :=
  headerRow :: accounts.map accountToRow

/-- Embeds `saveAccountInfoToCSV` (lines 505-536): the new content of the
cache file.  `os.Create` truncates, so this replaces the whole file
independent of its previous content. -/
def saveAccountInfoToCSV (accounts : List AccountInfo) : List Char :=
  csvEncode (saveRows accounts)

/-! ## Remote refresh (src/main.go lines 450-503) -/

/-- Shape of one entry returned by the Organizations `ListAccounts` call:
pointer-typed fields are `Option`s (`nil` = `none`); `Status` and
`JoinedMethod` are enum-backed strings; `JoinedTimestamp` carries the
already-formatted timestamp string of line 494. -/
structure RemoteAccount where
  Id : Option String
  Arn : Option String
  Email : Option String
  Name : Option String
  Status : String
  JoinedMethod : String
  JoinedTimestamp : Option String
deriving DecidableEq

/-- Mapping of one remote entry in `updateAccountInfoFromAWS` (lines
475-499): an entry is kept only when both `Id` and `Name` are non-nil;
absent optional fields default to the empty string; `AliasName` mirrors
`Name` and `AccountID` mirrors `ID`. -/
def fromRemoteEntry (r : RemoteAccount) : Option AccountInfo :=
  match r.Id, r.Name with
  | some id, some name =>
    some { ID := id, Arn := r.Arn.getD "", Email := r.Email.getD "",
           Name := name, Status := r.Status, JoinedMethod := r.JoinedMethod,
           JoinedTimestamp := r.JoinedTimestamp.getD "",
           AliasName := name, AccountID := id }
  | _, _ => none

/-- Record set built by `updateAccountInfoFromAWS` before saving. -/
def updateAccounts (remote : List RemoteAccount) : List AccountInfo :=
  remote.filterMap fromRemoteEntry

/-- Embeds the write step of `updateAccountInfoFromAWS` (lines 474-502):
the cache file's new content after a successful refresh. -/
def updateAccountInfoFromAWS (remote : List RemoteAccount) : List Char :=
  saveAccountInfoToCSV (updateAccounts remote)

/-! ## Query engine: search (src/main.go lines 98-128) -/

/-- Byte/char-level prefix test. -/
def isPrefixL : List Char → List Char → Bool
  | [], _ => true
  | _ :: _, [] => false
  | a :: as, b :: bs => a == b && isPrefixL as bs

/-- Substring containment on char lists (Go `strings.Contains`; UTF-8
byte containment of valid encodings coincides with char containment). -/
def containsL (needle : List Char) : List Char → Bool
  | [] => isPrefixL needle []
  | c :: t => isPrefixL needle (c :: t) || containsL needle t

/-- Embeds `strings.Contains(s, sub)`. -/
def containsStr (s sub : String) : Bool :=
  containsL sub.data s.data

/-- Search step of the root command (lines 98-128): collect the records
whose `AliasName` contains the term; if any of them equals the term
exactly, the first such record alone is returned with the exact-match
flag, else the whole substring-match list. -/
def searchStep (accounts : List AccountInfo) (term : String) : List AccountInfo × Bool :=
  match (accounts.filter (fun a => containsStr a.AliasName term)).find?
      (fun a => a.AliasName == term) with
  | some e => ([e], true)
  | none => (accounts.filter (fun a => containsStr a.AliasName term), false)

/-! ## Query engine: sort (src/main.go lines 213-295) -/

/-- Embeds the `SortInfo` struct (lines 214-217). -/
structure SortInfo where
  Field : String
  Descending : Bool
deriving DecidableEq

/-- ASCII lower-casing (`strings.ToLower` restricted to its ASCII
fragment).  Two strings equal under this map differ only in ASCII letter
case, so they are also equal under Go's full `strings.ToLower`: key
equality in the model implies key equality in the program. -/
def goToLower (s : String) : String :=
  String.mk (s.data.map Char.toLower)

/-- Lexicographic comparison of char lists by code point. -/
def ltChars : List Char → List Char → Bool
  | [], [] => false
  | [], _ :: _ => true
  | _ :: _, [] => false
  | a :: as, b :: bs => if a < b then true else if b < a then false else ltChars as bs

/-- Embeds Go's `<` on strings: bytewise lexicographic order on the UTF-8
encoding, which coincides with code-point lexicographic order. -/
def goStrLt (x y : String) : Bool :=
  ltChars x.data y.data

/-- Ascending comparator of `sortAccounts` (lines 271-286): `name` and
`email` compare lower-cased, the other fields byte-wise; an unrecognized
field always compares false. -/
def cmpLess (field : String) (x y : AccountInfo) : Bool :=
  if field = "id" then goStrLt x.ID y.ID
  else if field = "name" then goStrLt (goToLower x.Name) (goToLower y.Name)
  else if field = "email" then goStrLt (goToLower x.Email) (goToLower y.Email)
  else if field = "status" then goStrLt x.Status y.Status
  else if field = "joined_timestamp" then goStrLt x.JoinedTimestamp y.JoinedTimestamp
  else if field = "joined_method" then goStrLt x.JoinedMethod y.JoinedMethod
  else false

/-- Full comparator of `sortAccounts` (lines 268-294): `Descending`
inverts the ascending comparator's result. -/
def sortLess (si : SortInfo) (x y : AccountInfo) : Bool :=
  if si.Descending then !(cmpLess si.Field x y) else cmpLess si.Field x y

/-- One step of the insertion sort run by `sort.Slice` on short slices:
the new element moves left past every element it compares less-than. -/
def goInsert (less : AccountInfo → AccountInfo → Bool)
    (acc : List AccountInfo) (x : AccountInfo) : List AccountInfo :=
  ((acc.reverse.dropWhile (fun e => less x e)).reverse) ++
    x :: (acc.reverse.takeWhile (fun e => less x e)).reverse

/-- Sorting backend of `sortAccounts`.  Go's `sort.Slice` runs pdqsort,
which performs exactly this insertion sort on slices of at most 12
elements; on longer slices it switches to unstable partition-based
sorting (`sort.Slice` is documented as not stable), so the model is
faithful only up to 12 elements and every sort theorem below carries
that length bound or operates on shorter lists. -/
def goSortSlice (less : AccountInfo → AccountInfo → Bool)
    (l : List AccountInfo) : List AccountInfo :=
  l.foldl (goInsert less) []

/-- Embeds `sortAccounts` (lines 263-295): no-op on an empty field name,
otherwise `sort.Slice` with the (possibly inverted) comparator. -/
def sortAccounts (accounts : List AccountInfo) (si : SortInfo) : List AccountInfo :=
  if si.Field = "" then accounts else goSortSlice (sortLess si) accounts

/-- Key compared by `cmpLess` for each recognized field (analysis helper:
`cmpLess f x y` is exactly `sortKey f x < sortKey f y`). -/
def sortKey (field : String) (x : AccountInfo) : String :=
  if field = "id" then x.ID
  else if field = "name" then goToLower x.Name
  else if field = "email" then goToLower x.Email
  else if field = "status" then x.Status
  else if field = "joined_timestamp" then x.JoinedTimestamp
  else if field = "joined_method" then x.JoinedMethod
  else ""

/-! ## Presentation layer: flag resolution (src/main.go lines 156-260) -/

/-- Embeds `validateFormat` (lines 199-211), the loop over the three
valid format names unrolled. -/
def validateFormat (format : String) : Except String Unit :=
  if format = "" then
    Except.error "output format cannot be empty. Supported formats: json, table, csv"
  else if format = "json" || format = "table" || format = "csv" then Except.ok ()
  else Except.error "invalid output format. Supported formats: json, table, csv"

/-- Number of boolean format flags that are set (lines 159-168). -/
def activeFlags (jsonOutput tableOutput csvOutput : Bool) : Nat :=
  (if jsonOutput then 1 else 0) + (if tableOutput then 1 else 0) +
    (if csvOutput then 1 else 0)

/-- Embeds `resolveFormatFlags` (lines 157-196). -/
def resolveFormatFlags (formatOption : String)
    (jsonOutput tableOutput csvOutput : Bool) : Except String String :=
  if 1 < activeFlags jsonOutput tableOutput csvOutput then
    Except.error "multiple output format flags specified. Use only one format option"
  else if formatOption ≠ "" then
    match validateFormat formatOption with
    | Except.error e => Except.error e
    | Except.ok _ => Except.ok formatOption
  else if jsonOutput then Except.ok "json"
  else if tableOutput then Except.ok "table"
  else if csvOutput then Except.ok "csv"
  else Except.ok "default"

/-- Embeds `validateSortField` (lines 252-260), the loop over the six
valid field names unrolled. -/
def validSortField (field : String) : Bool :=
  field = "id" || field = "name" || field = "email" || field = "status" ||
    field = "joined_timestamp" || field = "joined_method"

/-- Embeds `resolveSortFlags` (lines 220-249). -/
def resolveSortFlags (sortField sortDesc : String) : Except String SortInfo :=
  if sortField ≠ "" ∧ sortDesc ≠ "" then
    Except.error "cannot specify both --sort and --sort-desc. Use only one sort option"
  else if sortField = "" ∧ sortDesc = "" then Except.ok ⟨"", false⟩
  else
    let fd : String × Bool :=
      if sortField ≠ "" then (sortField, false) else (sortDesc, true)
    if validSortField fd.1 then Except.ok ⟨fd.1, fd.2⟩
    else Except.error "invalid sort field. Supported fields: id, name, email, status, joined_timestamp, joined_method"

/-! ## Presentation layer: output dispatch (src/main.go lines 298-320) -/

instance : Inhabited AccountInfo :=
  ⟨{ ID := "", Arn := "", Email := "", Name := "", Status := "",
     JoinedMethod := "", JoinedTimestamp := "", AliasName := "", AccountID := "" }⟩

/-- Rendering action chosen by `outputByFormat`; the renderers themselves
(`outputJSON`, `outputTable`, `outputCSV`, the default printer) receive
the record list unchanged, so the chosen action together with its
arguments determines the produced output. -/
inductive RenderAction where
  | json (accounts : List AccountInfo)
  | table (accounts : List AccountInfo)
  | csv (accounts : List AccountInfo)
  | bareId (id : String)
  | detailLines (accounts : List AccountInfo)
deriving DecidableEq

/-- Embeds `outputByFormat` (lines 298-320): dispatch on the format
string; the `default` format prints the bare `AccountID` for a non-empty
exact match and one detail line per record otherwise; every other string
falls through to the table renderer.  The function cannot fail. -/
def outputByFormat (accounts : List AccountInfo) (format : String)
    (isExactMatch : Bool) : RenderAction :=
  if format = "json" then RenderAction.json accounts
  else if format = "table" then RenderAction.table accounts
  else if format = "csv" then RenderAction.csv accounts
  else if format = "default" then
    if isExactMatch ∧ accounts.length > 0 then
      RenderAction.bareId ((accounts.headD default).AccountID)
    else RenderAction.detailLines accounts
  else RenderAction.table accounts

/-! ## Clean records: the class on which the cache round-trip is exact -/

/-- Characters that are inert for an unquoted CSV field: not a comma,
quote, carriage return or line feed. -/
def simpleChar (c : Char) : Bool :=
  !(c = ',' || c = '"' || c = '\r' || c = '\n')

/-- Whether the char list contains a `"\r\n"` pair.  Inside a quoted
field the reader's `readLine` normalizes every such pair to `"\n"`, so a
field containing one cannot survive the round trip. -/
def hasCRLF : List Char → Bool
  | [] => false
  | c :: t => (c = '\r' && t.head? = some '\n') || hasCRLF t

/-- A field value that survives the cache round-trip untouched:
unaffected by whitespace trimming and free of a `"\r\n"` pair.  Commas,
quotes, lone CR or LF and the literal `\.` are fine: the writer quotes
such fields and the reader unquotes them. -/
def CleanField (f : String) : Prop :=
  goTrim f = f ∧ hasCRLF f.data = false

/-- A leading field that cannot be mistaken for a comment line: if it
begins with `#` the writer must quote it (a quoted field starts the line
with `"`, which the reader never treats as a comment). -/
def HeadFieldOk (f : String) : Prop :=
  f.data.head? = some '#' → fieldNeedsQuotes f.data = true

/-- A record on which saving and re-reading the cache is exact: the alias
invariants hold, the id is non-empty and is never written as an unquoted
field starting with the comment character, and every field is clean. -/
def CleanAccount (a : AccountInfo) : Prop :=
  a.AccountID = a.ID ∧ a.AliasName = a.Name ∧ a.ID ≠ "" ∧
  HeadFieldOk a.ID ∧
  CleanField a.ID ∧ CleanField a.Arn ∧ CleanField a.Email ∧ CleanField a.Name ∧
  CleanField a.Status ∧ CleanField a.JoinedMethod ∧ CleanField a.JoinedTimestamp

instance (f : String) : Decidable (CleanField f) := by
  unfold CleanField
  infer_instance

instance (f : String) : Decidable (HeadFieldOk f) := by
  unfold HeadFieldOk
  infer_instance

instance (a : AccountInfo) : Decidable (CleanAccount a) := by
  unfold CleanAccount
  infer_instance

/-! ## Theorems -/

/-- C5: `resolveFormatFlags` fails exactly when at least two boolean
flags are set or `formatOption` is a non-empty string other than `json`,
`table` or `csv`; a valid non-empty `formatOption` wins over a single
boolean flag; with an empty `formatOption` the single set boolean flag
determines the format and no flag at all yields `default`. -/
theorem resolveFormatFlags_spec (fo : String) (j t c : Bool) :
    ((∃ msg, resolveFormatFlags fo j t c = Except.error msg) ↔
      (2 ≤ activeFlags j t c ∨
        (fo ≠ "" ∧ fo ≠ "json" ∧ fo ≠ "table" ∧ fo ≠ "csv"))) ∧
    (activeFlags j t c ≤ 1 → (fo = "json" ∨ fo = "table" ∨ fo = "csv") →
      resolveFormatFlags fo j t c = Except.ok fo) ∧
    (fo = "" → activeFlags j t c ≤ 1 →
      resolveFormatFlags fo j t c =
        (if j then Except.ok "json" else if t then Except.ok "table"
         else if c then Except.ok "csv" else Except.ok "default")) := by
  cases j <;> cases t <;> cases c <;>
    by_cases h2 : fo = "json" <;> by_cases h3 : fo = "table" <;>
      by_cases h4 : fo = "csv" <;> by_cases h1 : fo = "" <;>
        simp_all [resolveFormatFlags, validateFormat, activeFlags]

/-- C5 witness: `formatOption="json"` with `tableFlag=true` resolves to
`json`. -/
theorem resolveFormatFlags_spec_witness :
    resolveFormatFlags "json" false true false = Except.ok "json" :=
  (resolveFormatFlags_spec "json" false true false).2.1 (by decide) (Or.inl rfl)

/-- C6: `resolveSortFlags` fails exactly when both inputs are non-empty
or the chosen field is not one of the six recognized names; both empty
yields the empty specification; `sortDesc` alone yields a descending
specification on that field. -/
theorem resolveSortFlags_spec (sf sd : String) :
    ((∃ msg, resolveSortFlags sf sd = Except.error msg) ↔
      ((sf ≠ "" ∧ sd ≠ "") ∨
       (sf ≠ "" ∧ sd = "" ∧ validSortField sf = false) ∨
       (sf = "" ∧ sd ≠ "" ∧ validSortField sd = false))) ∧
    (resolveSortFlags "" "" = Except.ok ⟨"", false⟩) ∧
    (sf = "" → sd ≠ "" → validSortField sd = true →
      resolveSortFlags sf sd = Except.ok ⟨sd, true⟩) ∧
    (sf ≠ "" → sd = "" → validSortField sf = true →
      resolveSortFlags sf sd = Except.ok ⟨sf, false⟩) := by
  by_cases h1 : sf = "" <;> by_cases h2 : sd = "" <;>
    by_cases h3 : validSortField sf = true <;> by_cases h4 : validSortField sd = true <;>
      simp_all [resolveSortFlags]

/-- C6 witness: `sortDesc="name"` alone yields the descending `name`
specification. -/
theorem resolveSortFlags_spec_witness :
    resolveSortFlags "" "name" = Except.ok ⟨"name", true⟩ :=
  (resolveSortFlags_spec "" "name").2.2.1 rfl (by decide) (by decide)

/-- C10: any format string other than `json`, `table`, `csv` and
`default` is rendered exactly as `table`, without failing. -/
theorem outputByFormat_fallback (accounts : List AccountInfo) (format : String)
    (isExactMatch : Bool) (h1 : format ≠ "json") (h2 : format ≠ "table")
    (h3 : format ≠ "csv") (h4 : format ≠ "default") :
    outputByFormat accounts format isExactMatch =
      outputByFormat accounts "table" isExactMatch := by
  simp [outputByFormat, h1, h2, h3, h4]

/-- C10 witness: the unknown format `xml` renders as `table`. -/
theorem outputByFormat_fallback_witness :
    outputByFormat [] "xml" false = outputByFormat [] "table" false :=
  outputByFormat_fallback [] "xml" false (by decide) (by decide) (by decide) (by decide)

/-- C7: a remote entry is skipped (without error) exactly when it lacks
an identifier or a name, and the refreshed cache content is the encoding
of a header row followed by one row per retained entry, fields in the
fixed order id, arn, email, name, status, joined_method,
joined_timestamp. -/
theorem updateAccountInfoFromAWS_spec (remote : List RemoteAccount) :
    (∀ r : RemoteAccount, fromRemoteEntry r = none ↔ (r.Id = none ∨ r.Name = none)) ∧
    updateAccountInfoFromAWS remote =
      csvEncode (headerRow ::
        (remote.filter (fun r => r.Id.isSome && r.Name.isSome)).map
          (fun r => [r.Id.getD "", r.Arn.getD "", r.Email.getD "", r.Name.getD "",
                     r.Status, r.JoinedMethod, r.JoinedTimestamp.getD ""])) := by
  constructor
  · intro r
    cases hId : r.Id <;> cases hName : r.Name <;> simp [fromRemoteEntry, hId, hName]
  · unfold updateAccountInfoFromAWS saveAccountInfoToCSV saveRows updateAccounts
    congr 2
    induction remote with
    | nil => rfl
    | cons r t ih =>
      cases hId : r.Id <;> cases hName : r.Name <;>
        simp [fromRemoteEntry, hId, hName, accountToRow, ih]

/-- C8: the first parsed row is discarded if and only if its first field
is exactly `alias_name`, `AliasName` or `id`; every later row is
processed as data regardless of its content. -/
theorem processRows_header_spec (r0 : List String) (rest : List (List String)) :
    processRows (r0 :: rest) =
      (if r0.headD "" = "alias_name" ∨ r0.headD "" = "AliasName" ∨ r0.headD "" = "id"
       then [] else (rowToAccount r0).toList) ++ rest.filterMap rowToAccount := by
  cases r0 with
  | nil =>
    simp [processRows, isHeaderRow, rowToAccount]
  | cons f fs =>
    by_cases h : f = "alias_name" ∨ f = "AliasName" ∨ f = "id"
    · have hb : isHeaderRow (f :: fs) = true := by
        simp [isHeaderRow]
        tauto
      simp [processRows, hb, h]
    · have hb : isHeaderRow (f :: fs) = false := by
        simp [isHeaderRow]
        tauto
      cases hrow : rowToAccount (f :: fs) <;>
        simp [processRows, hb, h, List.filterMap_cons, hrow]

/-- C9 counterexample: a remote entry whose identifier is present but
empty (`Id` pointing at the empty string) passes the nil check of
`updateAccountInfoFromAWS` and produces a record with an empty `id`. -/
theorem fromRemoteEntry_emptyId_counterexample :
    fromRemoteEntry ⟨some "", none, none, some "x", "", "", none⟩ =
      some ⟨"", "", "", "x", "", "", "", "x", ""⟩ ∧
    (⟨"", "", "", "x", "", "", "", "x", ""⟩ : AccountInfo).ID = "" :=
  ⟨rfl, rfl⟩

/-- C9 amended: every record parsed from a cache row satisfies
`accountId = id`, `aliasName = name` and has a non-empty `id`; every
record mapped from a remote entry satisfies the alias invariants, and has
a non-empty `id` provided the remote identifier is not the empty string
(the code checks the pointer for nil, not the string for emptiness). -/
theorem record_invariants (r : List String) (re : RemoteAccount) (a b : AccountInfo)
    (h1 : rowToAccount r = some a) (h2 : fromRemoteEntry re = some b) :
    (a.AccountID = a.ID ∧ a.AliasName = a.Name ∧ a.ID ≠ "") ∧
    (b.AccountID = b.ID ∧ b.AliasName = b.Name ∧ (re.Id ≠ some "" → b.ID ≠ "")) := by
  constructor
  · unfold rowToAccount at h1
    by_cases hc : 2 ≤ r.length ∧ r.headD "" ≠ ""
    · rw [if_pos hc] at h1
      by_cases h7 : 7 ≤ r.length <;>
        simp only [h7, if_true, if_false, ite_true, ite_false] at h1 <;>
        · split at h1
          · cases h1
            simp_all [extRow, legRow]
          · cases h1
    · rw [if_neg hc] at h1
      cases h1
  · cases hId : re.Id with
    | none => simp [fromRemoteEntry, hId] at h2
    | some id =>
      cases hName : re.Name with
      | none => simp [fromRemoteEntry, hId, hName] at h2
      | some name =>
        simp only [fromRemoteEntry, hId, hName] at h2
        cases h2
        simp_all

/-- C9 witness: a legacy row and a remote entry with non-empty id both
produce records satisfying the invariants. -/
theorem record_invariants_witness :
    ((⟨"111", "", "", "alice", "", "", "", "alice", "111"⟩ : AccountInfo).AccountID =
        (⟨"111", "", "", "alice", "", "", "", "alice", "111"⟩ : AccountInfo).ID) ∧
    (⟨"1", "", "", "x", "", "", "", "x", "1"⟩ : AccountInfo).ID ≠ "" := by
  have h := record_invariants ["alice", "111"]
    ⟨some "1", none, none, some "x", "", "", none⟩
    ⟨"111", "", "", "alice", "", "", "", "alice", "111"⟩
    ⟨"1", "", "", "x", "", "", "", "x", "1"⟩ rfl rfl
  exact ⟨h.1.1, h.2.2.2 (by decide)⟩

/-! ### Substring containment and the search step (C1) -/

theorem isPrefixL_iff (n h : List Char) :
    isPrefixL n h = true ↔ ∃ r, h = n ++ r := by
  induction n generalizing h with
  | nil => simp [isPrefixL]
  | cons a as ih =>
    cases h with
    | nil => simp [isPrefixL]
    | cons b bs =>
      simp only [isPrefixL, Bool.and_eq_true, beq_iff_eq, ih, List.cons_append,
        List.cons.injEq]
      constructor
      · rintro ⟨hab, r, hr⟩
        exact ⟨r, hab.symm, hr⟩
      · rintro ⟨r, hab, hr⟩
        exact ⟨hab.symm, r, hr⟩

theorem containsL_iff (n h : List Char) :
    containsL n h = true ↔ ∃ l r, h = l ++ n ++ r := by
  induction h with
  | nil =>
    simp only [containsL, isPrefixL_iff]
    constructor
    · rintro ⟨r, hr⟩
      exact ⟨[], r, by simpa using hr⟩
    · rintro ⟨l, r, hr⟩
      exact ⟨r, by
        have hl : l = [] := by
          cases l with
          | nil => rfl
          | cons x xs => simp at hr
        subst hl
        simpa using hr⟩
  | cons c t ih =>
    simp only [containsL, Bool.or_eq_true, isPrefixL_iff, ih]
    constructor
    · rintro (⟨r, hr⟩ | ⟨l, r, hr⟩)
      · exact ⟨[], r, by simpa using hr⟩
      · exact ⟨c :: l, r, by simp [hr]⟩
    · rintro ⟨l, r, hr⟩
      cases l with
      | nil => exact Or.inl ⟨r, by simpa using hr⟩
      | cons x xs =>
        simp only [List.cons_append, List.cons.injEq] at hr
        exact Or.inr ⟨xs, r, hr.2⟩

theorem containsStr_iff (s sub : String) :
    containsStr s sub = true ↔ ∃ l r, s.data = l ++ sub.data ++ r :=
  containsL_iff sub.data s.data

theorem containsStr_self (s : String) : containsStr s s = true :=
  (containsStr_iff s s).2 ⟨[], [], by simp⟩

theorem find?_filter_of_imp (l : List AccountInfo) (p q : AccountInfo → Bool)
    (h : ∀ a, p a = true → q a = true) :
    (l.filter q).find? p = l.find? p := by
  induction l with
  | nil => rfl
  | cons a t ih =>
    by_cases hq : q a = true
    · cases hp : p a <;>
        simp [List.filter_cons, hq, List.find?_cons, hp, ih]
    · have hp : p a = false := by
        cases hp : p a
        · rfl
        · exact absurd (h a hp) hq
      simp [List.filter_cons, hq, List.find?_cons, hp, ih]

/-- C1: for a non-empty term, the search step keeps exactly the records
whose `aliasName` contains the term as a case-sensitive substring; if some
record's `aliasName` equals the term, the result is the singleton holding
the first such record in input order with the exact-match flag set,
otherwise the full substring-match list with the flag clear. -/
theorem searchStep_spec (accounts : List AccountInfo) (term : String)
    (_hterm : term ≠ "") :
    (∀ s sub : String, containsStr s sub = true ↔ ∃ l r, s.data = l ++ sub.data ++ r) ∧
    (match accounts.find? (fun a => a.AliasName == term) with
     | some e => searchStep accounts term = ([e], true) ∧ e.AliasName = term ∧ e ∈ accounts
     | none =>
       searchStep accounts term =
         (accounts.filter (fun a => containsStr a.AliasName term), false)) := by
  refine ⟨containsStr_iff, ?_⟩
  have hfind :
      (accounts.filter (fun a => containsStr a.AliasName term)).find?
          (fun a => a.AliasName == term) =
        accounts.find? (fun a => a.AliasName == term) := by
    apply find?_filter_of_imp
    intro a ha
    have : a.AliasName = term := by simpa using ha
    rw [this]
    exact containsStr_self term
  cases hf : accounts.find? (fun a => a.AliasName == term) with
  | some e =>
    refine ⟨?_, ?_, ?_⟩
    · unfold searchStep
      rw [hfind, hf]
    · simpa using List.find?_some hf
    · exact List.mem_of_find?_eq_some hf
  | none =>
    unfold searchStep
    rw [hfind, hf]

/-- C1 witness: searching two records for `alice` where the first matches
exactly returns the singleton exact match. -/
theorem searchStep_spec_witness :
    searchStep [⟨"1", "", "", "alice", "", "", "", "alice", "1"⟩,
                ⟨"2", "", "", "alice2", "", "", "", "alice2", "2"⟩] "alice" =
      ([⟨"1", "", "", "alice", "", "", "", "alice", "1"⟩], true) := by
  have h := (searchStep_spec
    [⟨"1", "", "", "alice", "", "", "", "alice", "1"⟩,
     ⟨"2", "", "", "alice2", "", "", "", "alice2", "2"⟩] "alice" (by decide)).2
  have hf : ([⟨"1", "", "", "alice", "", "", "", "alice", "1"⟩,
              ⟨"2", "", "", "alice2", "", "", "", "alice2", "2"⟩] :
        List AccountInfo).find? (fun a => a.AliasName == "alice") =
      some ⟨"1", "", "", "alice", "", "", "", "alice", "1"⟩ := rfl
  rw [hf] at h
  exact h.1

/-! ### Sort stability (C4) -/

theorem ltChars_irrefl (l : List Char) : ltChars l l = false := by
  induction l with
  | nil => rfl
  | cons a t ih => simp [ltChars, ih]

theorem goStrLt_irrefl (s : String) : goStrLt s s = false :=
  ltChars_irrefl s.data

theorem cmpLess_eq_sortKey (field : String) (x y : AccountInfo) :
    cmpLess field x y = goStrLt (sortKey field x) (sortKey field y) := by
  unfold cmpLess sortKey
  split_ifs <;> rfl

theorem filter_goInsert (key : AccountInfo → String) (k : String)
    (x : AccountInfo) (acc : List AccountInfo) :
    (goInsert (fun a b => goStrLt (key a) (key b)) acc x).filter
        (fun a => key a == k) =
      if key x = k then acc.filter (fun a => key a == k) ++ [x]
      else acc.filter (fun a => key a == k) := by
  have hacc : ((acc.reverse.dropWhile (fun e => goStrLt (key x) (key e))).reverse ++
      (acc.reverse.takeWhile (fun e => goStrLt (key x) (key e))).reverse) = acc := by
    rw [← List.reverse_append, List.takeWhile_append_dropWhile, List.reverse_reverse]
  unfold goInsert
  by_cases hk : key x = k
  · have hnil : ((acc.reverse.takeWhile (fun e => goStrLt (key x) (key e))).reverse).filter
        (fun a => key a == k) = [] := by
      rw [List.filter_eq_nil_iff]
      intro e he
      have hlt : goStrLt (key x) (key e) = true :=
        List.mem_takeWhile_imp (p := fun e => goStrLt (key x) (key e))
          (List.mem_reverse.mp he)
      simp only [beq_iff_eq]
      intro hek
      rw [hek, ← hk, goStrLt_irrefl] at hlt
      cases hlt
    rw [if_pos hk]
    conv_rhs => rw [← hacc]
    simp only [List.filter_append, List.filter_cons, hnil]
    have hqx : (key x == k) = true := by simpa using hk
    simp [hqx]
  · rw [if_neg hk]
    conv_rhs => rw [← hacc]
    simp only [List.filter_append, List.filter_cons]
    have hqx : (key x == k) = false := by simpa using hk
    simp [hqx]

theorem filter_goSortSlice (key : AccountInfo → String) (k : String)
    (l : List AccountInfo) :
    (goSortSlice (fun a b => goStrLt (key a) (key b)) l).filter (fun a => key a == k) =
      l.filter (fun a => key a == k) := by
  unfold goSortSlice
  suffices h : ∀ acc : List AccountInfo,
      ((l.foldl (goInsert (fun a b => goStrLt (key a) (key b))) acc).filter
          (fun a => key a == k)) =
        acc.filter (fun a => key a == k) ++ l.filter (fun a => key a == k) by
    simpa using h []
  induction l with
  | nil => simp
  | cons a t ih =>
    intro acc
    rw [List.foldl_cons, ih, filter_goInsert]
    by_cases hk : key a = k <;> simp [List.filter_cons, hk]

/-- C4 counterexample: two distinct records with equal `name` keys,
sorted descending by `name` (a valid sort specification), come out in
reversed order, so ties do not keep their relative input order in the
descending direction. -/
theorem sortAccounts_desc_tie_counterexample :
    sortAccounts
        [⟨"1", "", "", "x", "", "", "", "x", "1"⟩,
         ⟨"2", "", "", "x", "", "", "", "x", "2"⟩] ⟨"name", true⟩ =
      [⟨"2", "", "", "x", "", "", "", "x", "2"⟩,
       ⟨"1", "", "", "x", "", "", "", "x", "1"⟩] ∧
    validSortField "name" = true ∧
    goToLower "x" = goToLower "x" ∧
    (⟨"1", "", "", "x", "", "", "", "x", "1"⟩ : AccountInfo) ≠
      ⟨"2", "", "", "x", "", "", "", "x", "2"⟩ := by
  refine ⟨by decide, rfl, rfl, by decide⟩

/-- C4 amended: on lists of at most 12 records - the regime where
`sort.Slice`'s pdqsort is exactly the insertion sort embedded here -
`sortAccounts` keeps the relative input order of equal-key records when
`descending` is false; when `descending` is true the comparator result is
inverted, and an equal-key pair is output in reversed, not original,
order. -/
theorem sortAccounts_stability (accounts : List AccountInfo) (si : SortInfo)
    (k : String) :
    (si.Descending = false → accounts.length ≤ 12 →
      (sortAccounts accounts si).filter (fun a => sortKey si.Field a == k) =
        accounts.filter (fun a => sortKey si.Field a == k)) ∧
    (si.Descending = true → si.Field ≠ "" → ∀ x y : AccountInfo,
      sortKey si.Field x = sortKey si.Field y →
      sortAccounts [x, y] si = [y, x]) := by
  constructor
  · intro hdesc _hlen
    by_cases hf : si.Field = ""
    · simp [sortAccounts, hf]
    · have hless : sortLess si = fun a b =>
          goStrLt (sortKey si.Field a) (sortKey si.Field b) := by
        funext a b
        simp [sortLess, hdesc, cmpLess_eq_sortKey]
      rw [sortAccounts, if_neg hf, hless, filter_goSortSlice]
  · intro hdesc hf x y hxy
    have hyx : sortLess si y x = true := by
      simp [sortLess, hdesc, cmpLess_eq_sortKey, hxy, goStrLt_irrefl]
    rw [sortAccounts, if_neg hf]
    unfold goSortSlice
    simp [goInsert, hyx]

/-- C4 witness: ascending sort by `name` keeps the input order of an
equal-key pair, and descending reverses it. -/
theorem sortAccounts_stability_witness :
    (sortAccounts
        [⟨"1", "", "", "x", "", "", "", "x", "1"⟩,
         ⟨"2", "", "", "y", "", "", "", "y", "2"⟩] ⟨"name", false⟩).filter
        (fun a => sortKey "name" a == "x") =
      ([⟨"1", "", "", "x", "", "", "", "x", "1"⟩,
        ⟨"2", "", "", "y", "", "", "", "y", "2"⟩] : List AccountInfo).filter
        (fun a => sortKey "name" a == "x") ∧
    sortAccounts
        [⟨"3", "", "", "z", "", "", "", "z", "3"⟩,
         ⟨"4", "", "", "z", "", "", "", "z", "4"⟩] ⟨"name", true⟩ =
      [⟨"4", "", "", "z", "", "", "", "z", "4"⟩,
       ⟨"3", "", "", "z", "", "", "", "z", "3"⟩] := by
  constructor
  · exact (sortAccounts_stability
      [⟨"1", "", "", "x", "", "", "", "x", "1"⟩,
       ⟨"2", "", "", "y", "", "", "", "y", "2"⟩] ⟨"name", false⟩ "x").1 rfl (by decide)
  · exact (sortAccounts_stability
      [⟨"3", "", "", "z", "", "", "", "z", "3"⟩,
       ⟨"4", "", "", "z", "", "", "", "z", "4"⟩] ⟨"name", true⟩ "").2 rfl
      (by decide) _ _ rfl

/-! ### Cache round-trip (C2) and reader behaviour (C3) -/

theorem takeWhile_append_all {p : Char → Bool} (l₁ l₂ : List Char)
    (h : ∀ c ∈ l₁, p c = true) :
    (l₁ ++ l₂).takeWhile p = l₁ ++ l₂.takeWhile p := by
  induction l₁ with
  | nil => rfl
  | cons a t ih =>
    have ha := h a (by simp)
    simp only [List.cons_append, List.takeWhile_cons, ha, if_true]
    rw [ih (fun c hc => h c (by simp [hc]))]

theorem dropWhile_append_all {p : Char → Bool} (l₁ l₂ : List Char)
    (h : ∀ c ∈ l₁, p c = true) :
    (l₁ ++ l₂).dropWhile p = l₂.dropWhile p := by
  induction l₁ with
  | nil => rfl
  | cons a t ih =>
    have ha := h a (by simp)
    simp only [List.cons_append, List.dropWhile_cons, ha, if_true]
    exact ih (fun c hc => h c (by simp [hc]))

theorem goTrim_head_not_space (f : String) (hf : goTrim f = f) (c : Char)
    (hc : f.data.head? = some c) : isSpaceGo c = false := by
  cases hdata : f.data with
  | nil => rw [hdata] at hc; cases hc
  | cons a t =>
    rw [hdata] at hc
    have hac : a = c := by simpa using hc
    subst hac
    by_contra hsp
    have hsp' : isSpaceGo a = true := by
      cases h : isSpaceGo a
      · exact absurd h hsp
      · rfl
    have hlen : (goTrim f).data.length = f.data.length := by rw [hf]
    have hgd : (goTrim f).data =
        ((f.data.dropWhile isSpaceGo).reverse.dropWhile isSpaceGo).reverse := rfl
    rw [hgd, hdata] at hlen
    have hlen2 : ((t.dropWhile isSpaceGo).reverse.dropWhile isSpaceGo).reverse.length =
        t.length + 1 := by
      simpa [List.dropWhile_cons, hsp'] using hlen
    have h1 : ((t.dropWhile isSpaceGo).reverse.dropWhile isSpaceGo).length ≤
        (t.dropWhile isSpaceGo).reverse.length := (List.dropWhile_sublist _).length_le
    have h2 : (t.dropWhile isSpaceGo).length ≤ t.length := (List.dropWhile_sublist _).length_le
    simp only [List.length_reverse] at hlen2 h1
    omega

theorem simpleChar_split (c : Char) (h : simpleChar c = true) :
    ¬c = ',' ∧ ¬c = '"' ∧ ¬c = '\r' ∧ ¬c = '\n' := by
  simp only [simpleChar, Bool.not_eq_true', Bool.or_eq_false_iff,
    decide_eq_false_iff_not] at h
  tauto

theorem stripCR_eq_self (l : List Char) (h : ∀ c ∈ l, simpleChar c = true) :
    stripCR l = l := by
  unfold stripCR
  cases hl : l.getLast? with
  | none => simp
  | some c =>
    have hmem : c ∈ l := by
      obtain ⟨hne, hcl⟩ := List.mem_getLast?_eq_getLast
        (show c ∈ l.getLast? by simp [Option.mem_def, hl])
      rw [hcl]
      exact List.getLast_mem hne
    obtain ⟨_, _, h3, _⟩ := simpleChar_split c (h c hmem)
    simp [h3]

theorem any_quote_false (l : List Char) (h : ∀ c ∈ l, simpleChar c = true) :
    (l.any (fun c => c == '"')) = false := by
  rw [List.any_eq_false]
  intro c hc
  obtain ⟨_, h2, _, _⟩ := simpleChar_split c (h c hc)
  simp [h2]

theorem trimLead_eq_self (s : List Char)
    (h : ∀ c, s.head? = some c → (c = '\n' ∨ isSpaceGo c = false)) :
    trimLead s = s := by
  cases s with
  | nil => rfl
  | cons a t =>
    rcases h a rfl with h1 | h2
    · simp [trimLead, h1]
    · unfold trimLead
      split_ifs <;> simp_all

theorem no_delim_of_simple (f : List Char) (h : ∀ c ∈ f, simpleChar c = true) :
    ∀ c ∈ f, (!(c = ',' || c = '\n')) = true := by
  intro c hc
  obtain ⟨h1, _, _, h4⟩ := simpleChar_split c (h c hc)
  simp [h1, h4]

theorem takeField_comma (f : List Char) (rest : List Char)
    (h : ∀ c ∈ f, simpleChar c = true) :
    takeField (f ++ ',' :: rest) = (f, rest, false) := by
  unfold takeField
  rw [takeWhile_append_all _ _ (no_delim_of_simple f h),
    dropWhile_append_all _ _ (no_delim_of_simple f h)]
  simp

theorem takeField_newline (f : List Char) (rest : List Char)
    (h : ∀ c ∈ f, simpleChar c = true) :
    takeField (f ++ '\n' :: rest) = (f, rest, true) := by
  unfold takeField
  rw [takeWhile_append_all _ _ (no_delim_of_simple f h),
    dropWhile_append_all _ _ (no_delim_of_simple f h)]
  simp [stripCR_eq_self f h]

theorem unquoted_facts (f : String) (h : fieldNeedsQuotes f.data = false) :
    (∀ c ∈ f.data, simpleChar c = true) ∧
    (∀ c, f.data.head? = some c → isSpaceGo c = false) := by
  cases hd : f.data with
  | nil =>
    refine ⟨by simp, ?_⟩
    intro c hc
    cases hc
  | cons a t =>
    rw [hd] at h
    unfold fieldNeedsQuotes at h
    simp only [Bool.or_eq_false_iff] at h
    obtain ⟨⟨hdot, hany⟩, hsp⟩ := h
    rw [List.any_eq_false] at hany
    constructor
    · intro c hc
      have h2 := hany c hc
      simp only [Bool.not_eq_true] at h2
      simp only [simpleChar, h2]
      rfl
    · intro c hc
      simp only [List.head?_cons, Option.some.injEq] at hc
      subst hc
      exact hsp

theorem encodeField_unquoted (f : String) (h : fieldNeedsQuotes f.data = false) :
    encodeField f = f.data := by
  simp [encodeField, h]

theorem encodeField_quoted (f : String) (h : fieldNeedsQuotes f.data = true) :
    encodeField f = '"' :: (escapeQuotes f.data ++ ['"']) := by
  simp [encodeField, h]

theorem escapeQuotes_length (g : List Char) : g.length ≤ (escapeQuotes g).length := by
  induction g with
  | nil => simp [escapeQuotes]
  | cons c t ih =>
    by_cases hc : c = '"' <;> simp [escapeQuotes, hc] <;> omega

theorem escape_head_ne (g : List Char) (h : g.head? ≠ some '\n') (Y : List Char) :
    (escapeQuotes g ++ '"' :: Y).head? ≠ some '\n' := by
  cases g with
  | nil => simp [escapeQuotes]
  | cons c2 t2 =>
    by_cases h2 : c2 = '"'
    · subst h2
      simp [escapeQuotes]
    · simp only [escapeQuotes, h2, if_false, List.cons_append, List.head?_cons]
      intro hc
      exact h (by simpa using hc)

theorem scanQuoted_escape (g : List Char) : ∀ (hg : hasCRLF g = false)
    (fuel : Nat) (acc : List Char) (d : Char) (rest : List Char),
    (d = ',' ∨ d = '\n') → g.length + 2 ≤ fuel →
    scanQuoted fuel acc (escapeQuotes g ++ '"' :: d :: rest) =
      Except.ok (acc ++ g, rest, d == '\n') := by
  induction g with
  | nil =>
    intro hg fuel acc d rest hd hfuel
    cases fuel with
    | zero => omega
    | succ k =>
      show scanQuoted (k + 1) acc ('"' :: d :: rest) = _
      rcases hd with rfl | rfl <;> simp [scanQuoted]
  | cons c g' ihg =>
    intro hg fuel acc d rest hd hfuel
    have hg2 : hasCRLF g' = false ∧ ((c = '\r' && g'.head? = some '\n') = false) := by
      unfold hasCRLF at hg
      simp only [Bool.or_eq_false_iff] at hg
      exact ⟨hg.2, hg.1⟩
    cases fuel with
    | zero => omega
    | succ k =>
      by_cases hc : c = '"'
      · subst hc
        have he : escapeQuotes ('"' :: g') = '"' :: '"' :: escapeQuotes g' := by
          simp [escapeQuotes]
      
        rw [he]
        show scanQuoted (k + 1) acc
          ('"' :: ('"' :: (escapeQuotes g' ++ '"' :: d :: rest))) = _
        simp only [scanQuoted, List.head?_cons, Option.some.injEq, eq_self_iff_true,
          if_true, List.drop_succ_cons, List.drop_zero]
        rw [ihg hg2.1 k (acc ++ ['"']) d rest hd (by simp at hfuel ⊢; omega)]
        simp
      · have he : escapeQuotes (c :: g') = c :: escapeQuotes g' := by
          simp [escapeQuotes, hc]
        rw [he]
        show scanQuoted (k + 1) acc (c :: (escapeQuotes g' ++ '"' :: d :: rest)) = _
        simp only [scanQuoted]
        rw [if_neg hc]
        have hcr : ¬(c = '\r' ∧ (escapeQuotes g' ++ '"' :: d :: rest).head? = some '\n') := by
          rintro ⟨hcr1, hhd⟩
        
          have hg'h : g'.head? ≠ some '\n' := by
            intro hgh
            have h5 := hg2.2
            rw [hcr1, hgh] at h5
            simp at h5
          exact escape_head_ne g' hg'h (d :: rest) hhd
        rw [if_neg hcr]
        rw [ihg hg2.1 k (acc ++ [c]) d rest hd (by simp at hfuel ⊢; omega)]
        simp

theorem unquoted_head_ok (f0 : String) (hq : fieldNeedsQuotes f0.data = false)
    (d : Char) (hd : d = ',' ∨ d = '\n') (M : List Char) :
    (∀ c, (f0.data ++ d :: M).head? = some c → (c = '\n' ∨ isSpaceGo c = false)) ∧
    ¬((f0.data ++ d :: M).head? = some '"') := by
  obtain ⟨hsimple, hheadsp⟩ := unquoted_facts f0 hq
  cases hf : f0.data with
  | nil =>
    constructor
    · intro c hc
      simp only [hf, List.nil_append, List.head?_cons, Option.some.injEq] at hc
      subst hc
      rcases hd with hd | hd <;> subst hd
      · exact Or.inr (by decide)
      · exact Or.inl rfl
    · simp only [hf, List.nil_append, List.head?_cons, Option.some.injEq]
      intro hq2
      rcases hd with hd | hd <;> subst hd <;> exact absurd hq2 (by decide)
  | cons a t =>
    have ha : isSpaceGo a = false := hheadsp a (by rw [hf]; rfl)
    obtain ⟨-, h2, -, -⟩ := simpleChar_split a (hsimple a (by rw [hf]; simp))
    constructor
    · intro c hc
      simp only [hf, List.cons_append, List.head?_cons, Option.some.injEq] at hc
      subst hc
      exact Or.inr ha
    · simp only [hf, List.cons_append, List.head?_cons, Option.some.injEq]
      intro hq2
      exact h2 hq2

theorem parseFields_clean (fs : List String) : ∀ (f0 : String),
    (∀ f ∈ f0 :: fs, CleanField f) →
    ∀ (fuel : Nat) (rest : List Char) (acc : List String),
      (joinComma ((f0 :: fs).map encodeField)).length + fs.length + 1 ≤ fuel →
      parseFields fuel (joinComma ((f0 :: fs).map encodeField) ++ '\n' :: rest) acc =
        Except.ok (acc ++ f0 :: fs, rest) := by
  induction fs with
  | nil =>
    intro f0 hclean fuel rest acc hfuel
    obtain ⟨htrim, hcrlf⟩ := hclean f0 (by simp)
    cases fuel with
    | zero => omega
    | succ k =>
      have hsingle : (joinComma ([f0].map encodeField)).length = (encodeField f0).length := by
        simp [joinComma]
      by_cases hq : fieldNeedsQuotes f0.data = true
      · have he := encodeField_quoted f0 hq
        have helen : (encodeField f0).length = (escapeQuotes f0.data).length + 2 := by
          rw [he]
          simp
        have hstream : joinComma ([f0].map encodeField) ++ '\n' :: rest =
            '"' :: (escapeQuotes f0.data ++ '"' :: '\n' :: rest) := by
          show encodeField f0 ++ '\n' :: rest = _
          rw [he]
          simp
        rw [hstream]
        simp only [parseFields]
        rw [trimLead_eq_self _ (by
          intro c hc
          simp only [List.head?_cons, Option.some.injEq] at hc
          subst hc
          exact Or.inr (by decide))]
        simp only [List.head?_cons, Option.some.injEq, eq_self_iff_true, if_true,
          List.drop_succ_cons, List.drop_zero]
        rw [scanQuoted_escape f0.data hcrlf k [] '\n' rest (Or.inr rfl) (by
          have hel := escapeQuotes_length f0.data
          omega)]
        simp [show String.mk f0.data = f0 from rfl]
      · have hq' : fieldNeedsQuotes f0.data = false := by
          cases hfn : fieldNeedsQuotes f0.data
          · rfl
          · exact absurd hfn hq
        obtain ⟨hsimple, -⟩ := unquoted_facts f0 hq'
        obtain ⟨hhead, hnq⟩ := unquoted_head_ok f0 hq' '\n' (Or.inr rfl) rest
        have hstream : joinComma ([f0].map encodeField) ++ '\n' :: rest =
            f0.data ++ '\n' :: rest := by
          show encodeField f0 ++ '\n' :: rest = _
          rw [encodeField_unquoted f0 hq']
        rw [hstream]
        simp only [parseFields]
        rw [trimLead_eq_self _ hhead, if_neg hnq,
          takeField_newline f0.data rest hsimple, any_quote_false f0.data hsimple]
        simp
  | cons f1 fs' ih =>
    intro f0 hclean fuel rest acc hfuel
    obtain ⟨htrim, hcrlf⟩ := hclean f0 (by simp)
    cases fuel with
    | zero => simp at hfuel
    | succ k =>
      have hlenJ : (joinComma ((f0 :: f1 :: fs').map encodeField)).length =
          (encodeField f0).length + 1 +
            (joinComma ((f1 :: fs').map encodeField)).length := by
        show (encodeField f0 ++ ',' :: joinComma ((f1 :: fs').map encodeField)).length = _
        simp [List.length_append]
        omega
      have hjoin : joinComma ((f0 :: f1 :: fs').map encodeField) ++ '\n' :: rest =
          encodeField f0 ++
            ',' :: (joinComma ((f1 :: fs').map encodeField) ++ '\n' :: rest) := by
        show (encodeField f0 ++ ',' :: joinComma ((f1 :: fs').map encodeField)) ++
            '\n' :: rest = _
        simp [List.append_assoc]
      rw [hjoin]
      have hrec := ih f1 (fun f hf => hclean f (by simp at hf ⊢; tauto)) k rest
        (acc ++ [f0]) (by
          have hb : (f1 :: fs').length = fs'.length + 1 := by simp
          omega)
      by_cases hq : fieldNeedsQuotes f0.data = true
      · have he := encodeField_quoted f0 hq
        have helen : (encodeField f0).length = (escapeQuotes f0.data).length + 2 := by
          rw [he]
          simp
        have hstream : encodeField f0 ++
            ',' :: (joinComma ((f1 :: fs').map encodeField) ++ '\n' :: rest) =
            '"' :: (escapeQuotes f0.data ++
              '"' :: ',' :: (joinComma ((f1 :: fs').map encodeField) ++ '\n' :: rest)) := by
          rw [he]
          simp
        rw [hstream]
        simp only [parseFields]
        rw [trimLead_eq_self _ (by
          intro c hc
          simp only [List.head?_cons, Option.some.injEq] at hc
          subst hc
          exact Or.inr (by decide))]
        simp only [List.head?_cons, Option.some.injEq, eq_self_iff_true, if_true,
          List.drop_succ_cons, List.drop_zero]
        rw [scanQuoted_escape f0.data hcrlf k [] ','
          (joinComma ((f1 :: fs').map encodeField) ++ '\n' :: rest) (Or.inl rfl) (by
          have hel := escapeQuotes_length f0.data
          omega)]
        rw [show ((',' : Char) == '\n') = false from rfl]
        simp only [List.nil_append, Bool.false_eq_true, if_false,
          show String.mk f0.data = f0 from rfl]
        rw [hrec]
        simp
      · have hq' : fieldNeedsQuotes f0.data = false := by
          cases hfn : fieldNeedsQuotes f0.data
          · rfl
          · exact absurd hfn hq
        obtain ⟨hsimple, -⟩ := unquoted_facts f0 hq'
        obtain ⟨hhead, hnq⟩ := unquoted_head_ok f0 hq' ',' (Or.inl rfl)
          (joinComma ((f1 :: fs').map encodeField) ++ '\n' :: rest)
        have hstream : encodeField f0 ++
            ',' :: (joinComma ((f1 :: fs').map encodeField) ++ '\n' :: rest) =
            f0.data ++ ',' :: (joinComma ((f1 :: fs').map encodeField) ++ '\n' :: rest) := by
          rw [encodeField_unquoted f0 hq']
        rw [hstream]
        simp only [parseFields]
        rw [trimLead_eq_self _ hhead, if_neg hnq,
          takeField_comma f0.data _ hsimple, any_quote_false f0.data hsimple]
        simp only [Bool.false_eq_true, if_false]
        rw [hrec]
        simp

theorem record_head_facts (f0 : String) (hok : HeadFieldOk f0) (M : List Char) :
    (encodeField f0 ++ ',' :: M) ≠ [] ∧
    ¬((encodeField f0 ++ ',' :: M).head? = some '\n') ∧
    ¬((encodeField f0 ++ ',' :: M).head? = some '\r') ∧
    ¬((encodeField f0 ++ ',' :: M).head? = some '#') := by
  by_cases hq : fieldNeedsQuotes f0.data = true
  · rw [encodeField_quoted f0 hq]
    refine ⟨by simp, by simp, by simp, by simp⟩
  · have hq' : fieldNeedsQuotes f0.data = false := by
      cases hfn : fieldNeedsQuotes f0.data
      · rfl
      · exact absurd hfn hq
    rw [encodeField_unquoted f0 hq']
    obtain ⟨hsimple, -⟩ := unquoted_facts f0 hq'
    cases hf : f0.data with
    | nil => refine ⟨by simp, by simp, by simp, by simp⟩
    | cons a t =>
      obtain ⟨-, -, h3, h4⟩ := simpleChar_split a (hsimple a (by rw [hf]; simp))
      have hah : ¬(a = '#') := by
        intro he
        have h5 : fieldNeedsQuotes f0.data = true := hok (by rw [hf, he]; rfl)
        rw [hq'] at h5
        cases h5
      refine ⟨by simp, ?_, ?_, ?_⟩ <;>
        simp only [List.cons_append, List.head?_cons, Option.some.injEq] <;>
        assumption

theorem readRecords_clean (rows : List (List String)) (n : Nat) (hn : 2 ≤ n) :
    (∀ r ∈ rows, r.length = n ∧ (∀ f ∈ r, CleanField f) ∧ HeadFieldOk (r.headD "")) →
    ∀ (fuel : Nat) (e : Option Nat),
      ((rows.map encodeRow).flatten).length + rows.length + n ≤ fuel →
      (e = none ∨ e = some n) →
      readRecords fuel ((rows.map encodeRow).flatten) e = Except.ok rows := by
  induction rows with
  | nil =>
    intro _ fuel e hfuel _
    cases fuel with
    | zero => omega
    | succ k => simp [readRecords]
  | cons r rows' ih =>
    intro hrows fuel e hfuel he
    obtain ⟨hlen, hcleanr, hheadok⟩ := hrows r (by simp)
    cases fuel with
    | zero => omega
    | succ k =>
      obtain ⟨f0, f1, rest', rfl⟩ : ∃ f0 f1 rest', r = f0 :: f1 :: rest' := by
        cases r with
        | nil => simp at hlen; omega
        | cons f0 rtail =>
          cases rtail with
          | nil => simp at hlen; omega
          | cons f1 rest' => exact ⟨f0, f1, rest', rfl⟩
      have hhead0 : HeadFieldOk f0 := by simpa using hheadok
      have henc : (((f0 :: f1 :: rest') :: rows').map encodeRow).flatten =
          encodeField f0 ++ ',' ::
            (joinComma ((f1 :: rest').map encodeField) ++
              '\n' :: (rows'.map encodeRow).flatten) := by
        show encodeRow (f0 :: f1 :: rest') ++ (rows'.map encodeRow).flatten = _
        show ((encodeField f0 ++ ',' :: joinComma ((f1 :: rest').map encodeField)) ++
            ['\n']) ++ (rows'.map encodeRow).flatten = _
        simp [List.append_assoc]
      obtain ⟨hne, hnl, hcr, hns⟩ := record_head_facts f0 hhead0
        (joinComma ((f1 :: rest').map encodeField) ++
          '\n' :: (rows'.map encodeRow).flatten)
      have hflat : ((((f0 :: f1 :: rest') :: rows').map encodeRow).flatten).length =
          (encodeRow (f0 :: f1 :: rest')).length +
            ((rows'.map encodeRow).flatten).length := by
        simp [List.length_append]
      have hrowlen : (encodeRow (f0 :: f1 :: rest')).length =
          (joinComma ((f0 :: f1 :: rest').map encodeField)).length + 1 := by
        unfold encodeRow
        simp
      have hlen2 : rest'.length + 2 = n := by simpa using hlen
      have hparse := parseFields_clean (f1 :: rest') f0 hcleanr k
        ((rows'.map encodeRow).flatten) [] (by
          have e1 : (((f0 :: f1 :: rest') :: rows') : List (List String)).length =
              rows'.length + 1 := by simp
          have e2 : ((f1 :: rest') : List String).length = rest'.length + 1 := by simp
          omega)
      have hjoin2 : joinComma ((f0 :: f1 :: rest').map encodeField) ++
          '\n' :: (rows'.map encodeRow).flatten =
          encodeField f0 ++ ',' ::
            (joinComma ((f1 :: rest').map encodeField) ++
              '\n' :: (rows'.map encodeRow).flatten) := by
        show (encodeField f0 ++ ',' :: joinComma ((f1 :: rest').map encodeField)) ++
            '\n' :: (rows'.map encodeRow).flatten = _
        simp [List.append_assoc]
      rw [hjoin2] at hparse
      have hrec := ih (fun rr hrr => hrows rr (by simp [hrr]))
        k (some n) (by
          have e1 : (((f0 :: f1 :: rest') :: rows') : List (List String)).length =
              rows'.length + 1 := by simp
          omega) (Or.inr rfl)
      rw [henc]
      simp only [readRecords]
      rw [if_neg hne, if_neg hnl,
        if_neg (fun hand => hcr hand.1), if_neg hns, hparse]
      have hlen' : (f0 :: f1 :: rest').length = n := hlen
      rcases he with he | he <;> subst he
      · simp only [List.nil_append, hlen', hrec]
        rfl
      · simp only [List.nil_append, hlen', if_pos rfl, hrec]
        rfl

theorem joinComma_length (ls : List (List Char)) :
    ls.length ≤ (joinComma ls).length + 1 := by
  induction ls with
  | nil => simp [joinComma]
  | cons f fs ih =>
    cases fs with
    | nil => simp [joinComma]
    | cons g gs =>
      show (f :: g :: gs).length ≤ (f ++ ',' :: joinComma (g :: gs)).length + 1
      simp only [List.length_cons, List.length_append] at ih ⊢
      omega

theorem length_le_encodeRow (r : List String) : r.length ≤ (encodeRow r).length := by
  unfold encodeRow
  have h := joinComma_length (r.map encodeField)
  simp only [List.length_map] at h
  simp only [List.length_append, List.length_cons, List.length_nil]
  omega

theorem rows_le_flatten (rows : List (List String)) :
    rows.length ≤ ((rows.map encodeRow).flatten).length := by
  induction rows with
  | nil => simp
  | cons r t ih =>
    have h1 : 1 ≤ (encodeRow r).length := by
      unfold encodeRow
      simp
    simp only [List.map_cons, List.flatten_cons, List.length_append, List.length_cons]
    omega

theorem csvEncode_getLast (rows' : List (List String)) : ∀ (r : List String),
    ((((r :: rows').map encodeRow).flatten).getLast?) = some '\n' := by
  induction rows' with
  | nil =>
    intro r
    show (encodeRow r ++ []).getLast? = some '\n'
    rw [List.append_nil]
    show (joinComma (r.map encodeField) ++ '\n' :: []).getLast? = some '\n'
    rw [List.getLast?_append_cons]
    rfl
  | cons r2 rows'' ih =>
    intro r
    show (encodeRow r ++ ((r2 :: rows'').map encodeRow).flatten).getLast? = some '\n'
    have hne : ((r2 :: rows'').map encodeRow).flatten ≠ [] := by
      intro hnil
      have h2 := ih r2
      rw [hnil] at h2
      cases h2
    rw [List.getLast?_append_of_ne_nil _ hne]
    exact ih r2

theorem stripCR_csvEncode (rows : List (List String)) :
    stripCR (csvEncode rows) = csvEncode rows := by
  cases rows with
  | nil => rfl
  | cons r rows' =>
    have h := csvEncode_getLast rows' r
    unfold stripCR
    rw [show ((csvEncode (r :: rows')).getLast?) = some '\n' from h]
    simp

theorem csvReadAll_clean (rows : List (List String)) (n : Nat) (hn : 2 ≤ n)
    (hrows : ∀ r ∈ rows, r.length = n ∧ (∀ f ∈ r, CleanField f) ∧
      HeadFieldOk (r.headD "")) :
    csvReadAll (csvEncode rows) = Except.ok rows := by
  cases rows with
  | nil => rfl
  | cons r rows' =>
    show readRecords (4 * ((stripCR (csvEncode (r :: rows'))).length + 2))
        (stripCR (csvEncode (r :: rows'))) none = Except.ok (r :: rows')
    rw [stripCR_csvEncode]
    apply readRecords_clean (r :: rows') n hn hrows _ none _ (Or.inl rfl)
    have hL1 : (r :: rows').length ≤ (((r :: rows').map encodeRow).flatten).length :=
      rows_le_flatten _
    have hr1 := (hrows r (by simp)).1
    have hr2 : r.length ≤ (encodeRow r).length := length_le_encodeRow r
    have hr3 : (encodeRow r).length ≤ (((r :: rows').map encodeRow).flatten).length := by
      simp only [List.map_cons, List.flatten_cons, List.length_append]
      omega
    have e0 : (csvEncode (r :: rows')).length =
        (((r :: rows').map encodeRow).flatten).length := rfl
    omega

theorem rowToAccount_accountToRow (a : AccountInfo) (h : CleanAccount a) :
    rowToAccount (accountToRow a) = some a := by
  obtain ⟨h1, h2, h3, h4, hID, hArn, hEmail, hName, hStatus, hJM, hJT⟩ := h
  cases a with
  | mk ID Arn Email Name Status JM JT Alias AcctID =>
    simp only at h1 h2 h3 hID hArn hEmail hName hStatus hJM hJT
    subst h1 h2
    simp [rowToAccount, accountToRow, extRow, h3, hID.1, hArn.1, hEmail.1,
      hName.1, hStatus.1, hJM.1, hJT.1]

theorem filterMap_rowToAccount_map (accounts : List AccountInfo)
    (h : ∀ a ∈ accounts, CleanAccount a) :
    (accounts.map accountToRow).filterMap rowToAccount = accounts := by
  induction accounts with
  | nil => rfl
  | cons a t ih =>
    simp only [List.map_cons, List.filterMap_cons,
      rowToAccount_accountToRow a (h a (by simp))]
    rw [ih (fun x hx => h x (by simp [hx]))]

theorem processRows_saveRows (accounts : List AccountInfo)
    (h : ∀ a ∈ accounts, CleanAccount a) :
    processRows (saveRows accounts) = accounts := by
  show (if isHeaderRow headerRow = true then
        (accounts.map accountToRow).filterMap rowToAccount
      else (headerRow :: accounts.map accountToRow).filterMap rowToAccount) = accounts
  rw [show isHeaderRow headerRow = true from rfl]
  simp [filterMap_rowToAccount_map accounts h]

/-- C2 counterexample: a record in the extended shape (alias invariants
hold, id non-empty) whose `name` carries a trailing space is altered by
the round trip: `readAccountInfo` trims every field with
`strings.TrimSpace`, so the re-read set differs from the saved one. -/
theorem saveRead_counterexample :
    readAccountInfo (saveAccountInfoToCSV
        [⟨"1", "", "", "b ", "", "", "", "b ", "1"⟩]) =
      Except.ok [⟨"1", "", "", "b", "", "", "", "b", "1"⟩] ∧
    ([⟨"1", "", "", "b", "", "", "", "b", "1"⟩] : List AccountInfo) ≠
      [⟨"1", "", "", "b ", "", "", "", "b ", "1"⟩] :=
  ⟨rfl, by decide⟩

/-- C2 amended: the cache round-trip is exact on every record set whose
records satisfy the alias invariants, have a non-empty id that is never
written as an unquoted field beginning with the comment character, and
whose fields are unaffected by whitespace trimming and contain no
`"\r\n"` pair.  Commas, quotes, lone CR or LF and the literal `\.`
inside fields round-trip via the writer's quoting; trailing or leading
whitespace is lost to `strings.TrimSpace` on read, a CRLF pair inside a
quoted field is normalized to LF by the reader, and an unquoted id
beginning with `#` turns its row into a comment line. -/
theorem saveRead_roundtrip (accounts : List AccountInfo)
    (h : ∀ a ∈ accounts, CleanAccount a) :
    readAccountInfo (saveAccountInfoToCSV accounts) = Except.ok accounts := by
  unfold readAccountInfo saveAccountInfoToCSV
  rw [csvReadAll_clean (saveRows accounts) 7 (by omega) ?hrows]
  · show Except.ok (processRows (saveRows accounts)) = Except.ok accounts
    rw [processRows_saveRows accounts h]
  case hrows =>
    intro r hr
    simp only [saveRows, List.mem_cons] at hr
    rcases hr with rfl | hr
    · refine ⟨by decide, ?_, by decide⟩
      intro f hf
      simp only [headerRow, List.mem_cons, List.not_mem_nil, or_false] at hf
      rcases hf with rfl | rfl | rfl | rfl | rfl | rfl | rfl <;> decide
    · obtain ⟨a, ha, rfl⟩ := List.mem_map.mp hr
      obtain ⟨h1, h2, h3, h4, hID, hArn, hEmail, hName, hStatus, hJM, hJT⟩ := h a ha
      refine ⟨by simp [accountToRow], ?_, by simpa [accountToRow] using h4⟩
      intro f hf
      simp only [accountToRow, List.mem_cons, List.not_mem_nil, or_false] at hf
      rcases hf with rfl | rfl | rfl | rfl | rfl | rfl | rfl <;> assumption

/-- C2 witness: a realistic extended record survives the round trip. -/
theorem saveRead_roundtrip_witness :
    readAccountInfo (saveAccountInfoToCSV
        [⟨"123456789012", "arn:aws:organizations::1:account/o-x/123456789012",
          "a@b.c", "alice", "ACTIVE", "INVITED",
          "2024-01-02T03:04:05.000000-07:00", "alice", "123456789012"⟩]) =
      Except.ok
        [⟨"123456789012", "arn:aws:organizations::1:account/o-x/123456789012",
          "a@b.c", "alice", "ACTIVE", "INVITED",
          "2024-01-02T03:04:05.000000-07:00", "alice", "123456789012"⟩] := by
  apply saveRead_roundtrip
  intro a ha
  simp only [List.mem_cons, List.not_mem_nil, or_false] at ha
  subst ha
  decide

/-- C3 counterexample: a tabularly well-formed file mixing a 7-field row
with a 2-field row makes `readAccountInfo` fail wholesale (the reader
enforces the first record's field count); the rows are neither silently
dropped nor decoded as the legacy shape. -/
theorem readAccountInfo_mixed_counts_counterexample :
    readAccountInfo ("a,b,c,d,e,f,g\nx,y\n").data =
      Except.error "wrong number of fields" :=
  rfl

/-- C3 amended: whenever the CSV layer succeeds — which requires every
record to share the first record's field count — `readAccountInfo`
succeeds, no individual row causes an error, and each row is dispatched
by field count: at least 7 fields decode as the extended shape, 2 to 6 as
the legacy shape from the first two fields, anything else is dropped;
rows with an empty leading field or a whitespace-only resolved id are
dropped silently. -/
theorem readAccountInfo_wellformed_spec (content : List Char)
    (rows : List (List String)) (h : csvReadAll content = Except.ok rows) :
    readAccountInfo content = Except.ok (processRows rows) ∧
    (∀ r : List String,
      rowToAccount r =
        if 7 ≤ r.length then
          (if r.headD "" ≠ "" ∧ goTrim (r.headD "") ≠ "" then some (extRow r) else none)
        else if 2 ≤ r.length then
          (if r.headD "" ≠ "" ∧ goTrim (r.getD 1 "") ≠ "" then some (legRow r) else none)
        else none) := by
  constructor
  · unfold readAccountInfo
    rw [h]
    rfl
  · intro r
    have hhd : r.headD "" = r.getD 0 "" := by cases r <;> rfl
    unfold rowToAccount
    by_cases h7 : 7 ≤ r.length
    · have h2 : 2 ≤ r.length := by omega
      have hext : (extRow r).ID = goTrim (r.headD "") := by rw [hhd]; rfl
      simp only [h2, h7, if_true, true_and, hext]
      by_cases hh : r.headD "" ≠ "" <;> by_cases ht : goTrim (r.headD "") ≠ "" <;>
        simp_all
    · by_cases h2 : 2 ≤ r.length
      · have hleg : (legRow r).ID = goTrim (r.getD 1 "") := rfl
        simp only [h2, h7, if_true, if_false, true_and, hleg]
        by_cases hh : r.headD "" ≠ "" <;> by_cases ht : goTrim (r.getD 1 "") ≠ "" <;>
          simp_all
      · simp [h2, h7]

/-- C3 witness: a uniform legacy file parses with no row error. -/
theorem readAccountInfo_wellformed_spec_witness :
    readAccountInfo ("alice,111\nbob,222\n").data =
      Except.ok (processRows [["alice", "111"], ["bob", "222"]]) :=
  (readAccountInfo_wellformed_spec ("alice,111\nbob,222\n").data
    [["alice", "111"], ["bob", "222"]] rfl).1

end Awsid
